import Mathlib

/-!
Verification of the McSAS Monte-Carlo small-angle-scattering fitting engine
(`mcsas/mcsas.py`, `mcsas/backgroundscalingfit.py`, `models/sphere.py`,
`models/gaussianchain.py`) against its natural-language specification.

The embedding works over exact rational arithmetic.  External numeric
collaborators of the Python code — `scipy.optimize.leastsq`,
`scipy.optimize.fmin`, `numpy.sqrt`, `numpy.sin`, `numpy.cos`,
`numpy.expm1`, and the model's random parameter generator — are modelled
as abstract function parameters ("oracles"): the source treats their
results as opaque values, so all theorems quantify over them.

The file lists all definitions first, then all theorems.
-/

namespace McSAS

/-!
## Definitions: ScaleBgFit (`mcsas/backgroundscalingfit.py` and
`McSAS.optimScalingAndBackground` in `mcsas/mcsas.py`)

The scipy solvers (`optimize.leastsq` in `fitLinear` / the `ver = 2`
branch, `optimize.fmin` in `fitSquared` / the `ver = 1` branch) are
modelled as an abstract `solver` oracle mapping the initial guess to the
returned (scaling, background) pair; both code paths treat the solver
output as an opaque pair and then evaluate the reduced chi-squared at
that output.
-/

/-- `BackgroundScalingFit.chiSqr`: `sum(((dataMeas - dataCalc)/dataErr)**2) / len(dataMeas)`. -/
def chiSqr (dataMeas dataErr dataCalc : List ℚ) : ℚ :=
  (((dataMeas.zip dataCalc).zip dataErr).map
    (fun p => ((p.1.1 - p.1.2) / p.2) ^ 2)).sum / (dataMeas.length : ℚ)

/-- `BackgroundScalingFit.dataScaled`: `data * sc[0] + sc[1]` when
`findBackground`, else `data * sc[0]`. -/
def dataScaled (findBackground : Bool) (data : List ℚ) (sc : ℚ × ℚ) : List ℚ :=
  if findBackground then data.map (fun x => x * sc.1 + sc.2)
  else data.map (fun x => x * sc.1)

/-- `BackgroundScalingFit.calc` (lines 91-110, with `vol = None`):
runs the solver (`fitLinear` for `ver = 2`, `fitSquared` otherwise — both
are scipy calls modelled by the `solver` oracle), pins the background to 0
when `findBackground` is false, and evaluates `chiSqr` of the scaled data
at the returned factors. -/
def bgScalingFitCalc (solver : ℚ × ℚ → ℚ × ℚ) (findBackground : Bool)
    (dataMeas dataErr dataCalc : List ℚ) (sc : ℚ × ℚ) : (ℚ × ℚ) × ℚ :=
  let sc1 := solver sc
  let sc2 := if findBackground then sc1 else (sc1.1, 0)
  (sc2, chiSqr dataMeas dataErr (dataScaled findBackground dataCalc sc2))

/-- `csqr_v1` inside `McSAS.optimScalingAndBackground`:
`sum(((intObs - intCalc)/intError)**2) / size(intObs)`. -/
def csqr_v1 (intObs intCalc intError : List ℚ) : ℚ :=
  (((intObs.zip intCalc).zip intError).map
    (fun p => ((p.1.1 - p.1.2) / p.2) ^ 2)).sum / (intObs.length : ℚ)

/-- `McSAS.optimScalingAndBackground` (mcsas.py lines 449-485): the scipy
optimizer (`leastsq` for `ver = 2`, `fmin` for `ver = 1`; both branches are
identical up to which oracle is supplied) returns `sc`; with background the
convergence value is `csqr_v1(intObs, sc[0]*intCalc + sc[1], intError)`,
without background `sc[1]` is set to `0.0` and the convergence value is
`csqr_v1(intObs, sc[0]*intCalc, intError)`. -/
def optimScalingAndBackground (solver : ℚ × ℚ → ℚ × ℚ) (background : Bool)
    (intObs intCalc intError : List ℚ) (sc : ℚ × ℚ) : (ℚ × ℚ) × ℚ :=
  if background then
    let sc' := solver sc
    (sc', csqr_v1 intObs (intCalc.map (fun x => sc'.1 * x + sc'.2)) intError)
  else
    let sc' := (((solver sc).1 : ℚ), (0 : ℚ))
    (sc', csqr_v1 intObs (intCalc.map (fun x => sc'.1 * x)) intError)

/-- The specification's reduced chi-squared,
`χ²ᵣ = (1/M')·Σ((I − (A·Ic+B))/σ)²`, written independently of the code's
zip/map formulation as an indexed sum. -/
def specReducedChiSq (intObs intCalc intError : List ℚ) (A B : ℚ) : ℚ :=
  (∑ i ∈ Finset.range intObs.length,
      ((intObs.getD i 0 - (A * intCalc.getD i 0 + B)) / intError.getD i 0) ^ 2)
    / (intObs.length : ℚ)

/-!
## Definitions: form factors (`models/sphere.py`, `models/gaussianchain.py`)

`numpy.sin`, `numpy.cos`, `numpy.sqrt` and `numpy.expm1` are abstract
oracles.  Division follows the code formula literally; in exact field
semantics a zero denominator yields the junk value `0` (the floating-point
code yields `nan` there, by the same division-by-zero event).
-/

/-- `Sphere.ff` at a single `(q, r)` pair (models/sphere.py lines 47-53):
`3 * (sin(qr) - qr * cos(qr)) / (qr ** 3)`, with no special case at
`qr = 0`. -/
def sphereFF (sinF cosF : ℚ → ℚ) (q r : ℚ) : ℚ :=
  3 * (sinF (q * r) - (q * r) * cosF (q * r)) / (q * r) ^ 3

/-- `GaussianChain.formfactor` at a single `q`
(models/gaussianchain.py lines 52-59): `beta = bp - (k*rg²)*etas`,
`u = (q*rg)²`, result `√2·√(expm1(-u)+u)/u · beta`, overwritten with
`beta` wherever `q ≤ 0`. -/
def gaussianChainFF (sqrtF expm1F : ℚ → ℚ) (rg bp etas k : ℚ) (q : ℚ) : ℚ :=
  let beta := bp - (k * rg ^ 2) * etas
  let u := (q * rg) ^ 2
  if q ≤ 0 then beta else sqrtF 2 * sqrtF (expm1F (-u) + u) / u * beta

/-- A concrete instance of the `numpy.sqrt` oracle, exact on the perfect
squares used in the concrete evaluations below (IEEE sqrt is exact on
small perfect squares, so the floating-point code computes the same
values there). -/
def ratSqrt (x : ℚ) : ℚ :=
  if x = 4 then 2 else if x = 16 then 4 else if x = 25 then 5 else 0

/-!
## Definitions: `McSAS.mcFit` (mcsas.py lines 572-777)

One MC run.  The parameter-row type `α` is abstract (one row of `rset`,
i.e. the active parameter values of one contribution); the model's
`ff`/`vol`/`smear` methods, `numpy.sqrt` and the scipy solver inside
`optimScalingAndBackground` are oracles carried in an environment record.
The model's random generator enters only through the proposal stream
passed to the loop.
-/

/-- The fixed data of one `mcFit` call: the model oracles, the
`findBackground` flag, the masked data columns `q`, `intObs = data[:, 1]`
and `intError = data[:, 2]`, plus a default row (used only to totalize the
list indexing; every access is in bounds). `lsq` models
`scipy.optimize.leastsq`, which sees the calculated intensity and the
warm-start guess. -/
structure McEnv (α : Type) where
  ff : α → ℚ → ℚ
  vol : α → ℚ
  smear : List ℚ → List ℚ
  sqrtf : ℚ → ℚ
  lsq : List ℚ → ℚ × ℚ → ℚ × ℚ
  findBackground : Bool
  q : List ℚ
  intObs : List ℚ
  intError : List ℚ
  dflt : α

/-- The mutable state of the `mcFit` while-loop (lines 668-746). -/
structure McState (α : Type) where
  rset : List α
  vset : List ℚ
  it : List ℚ
  vst : ℚ
  sc : ℚ × ℚ
  conval : ℚ
  ri : ℕ
  numIter : ℕ
  numMoves : ℕ
  numNotAccepted : ℕ

/-- The intensity contribution of a single row: `F(q; p)² · V²` at every
`q` point (`itt = (ft**2 * vtt**2)` on line 684, `io = (fo**2 *
vset[ri]**2)` on line 690). -/
def contribIntensity (env : McEnv α) (r : α) (v : ℚ) : List ℚ :=
  env.q.map (fun qv => (env.ff r qv) ^ 2 * v ^ 2)

/-- The candidate total squared compensated volume of line 695:
`vstest = (sqrt(vst) - vset[ri])**2 + vtt**2`. -/
def vstestUpdate (sqrtf : ℚ → ℚ) (vst vr vtt : ℚ) : ℚ :=
  (sqrtf vst - vr) ^ 2 + vtt ^ 2

/-- The trial computation of one iteration (lines 681-699): the proposed
row's intensity, the candidate total intensity
`itest = it - io + itt` (with `io` recomputed on the fly from the current
row `rset[ri]` and stored `vset[ri]`), smearing, the candidate
`vstest`, and the warm-started refit on `itest/vstest`.  Returns
`((itest, vstest), (sct, convalt))`. -/
def mcTrial (env : McEnv α) (s : McState α) (rt : α) : (List ℚ × ℚ) × ((ℚ × ℚ) × ℚ) :=
  let vtt := env.vol rt
  let itt := contribIntensity env rt vtt
  let io := contribIntensity env (s.rset.getD s.ri env.dflt) (s.vset.getD s.ri 0)
  let itest := env.smear (List.zipWith (fun a b => a + b)
    (List.zipWith (fun a b => a - b) s.it io) itt)
  let vstest := vstestUpdate env.sqrtf s.vst (s.vset.getD s.ri 0) vtt
  let fit := optimScalingAndBackground (env.lsq (itest.map (fun x => x / vstest)))
    env.findBackground env.intObs (itest.map (fun x => x / vstest)) env.intError s.sc
  ((itest, vstest), fit)

/-- One iteration of the while-loop body (lines 681-746): the move is
accepted exactly when `convalt < conval`, in which case
`rset[ri] ← rt`, `vset[ri] ← vtt`, `it ← itest`, `vst ← vstest`,
`(sc, conval) ← (sct, convalt)`, the move counter increments and the
non-accepted counter resets; otherwise only the non-accepted counter
increments.  Either way `ri ← (ri + 1) % numContribs` and the iteration
counter increments. -/
def mcStep (env : McEnv α) (s : McState α) (rt : α) : McState α :=
  let t := mcTrial env s rt
  if t.2.2 < s.conval then
    { rset := s.rset.set s.ri rt
      vset := s.vset.set s.ri (env.vol rt)
      it := t.1.1
      vst := t.1.2
      sc := t.2.1
      conval := t.2.2
      ri := (s.ri + 1) % s.rset.length
      numIter := s.numIter + 1
      numMoves := s.numMoves + 1
      numNotAccepted := 0 }
  else
    { s with
      ri := (s.ri + 1) % s.rset.length
      numIter := s.numIter + 1
      numNotAccepted := s.numNotAccepted + 1 }

/-- The `mcFit` while-loop (lines 677-746) with its guard
`len(vset) > 1 and conval > minConvergence and numIter < maxIterations`
(the GUI stop flag is false in the core); the fuel argument only bounds
the recursion and is instantiated at `maxIterations`.  Proposals
`rt = model.generateParameters()` are an abstract stream indexed by the
iteration number. -/
def mcFitLoop (env : McEnv α) (minConv : ℚ) (maxIter : ℕ) (proposals : ℕ → α) :
    ℕ → McState α → McState α
  | 0, s => s
  | fuel + 1, s =>
    if 1 < s.vset.length ∧ minConv < s.conval ∧ s.numIter < maxIter then
      mcFitLoop env minConv maxIter proposals fuel (mcStep env s (proposals s.numIter))
    else s

/-- `McSAS.calcModel` (lines 1296-1307): per-row compensated volumes and
the accumulated total intensity `Σᵢ F(q; pᵢ)²·Vᵢ²`. -/
def calcModel (env : McEnv α) (rset : List α) : List ℚ × List ℚ :=
  (env.q.map (fun qv => (rset.map (fun r => (env.ff r qv) ^ 2 * (env.vol r) ^ 2)).sum),
   rset.map env.vol)

def listMax (l : List ℚ) : ℚ := l.foldr max (l.headD 0)

def listMin (l : List ℚ) : ℚ := l.foldr min (l.headD 0)

/-- The pre-loop initialization of `mcFit` (lines 630-648) from a given
initial row set: `it, vset = calcModel(...)`; `vst = sum(vset**2)`;
`it = smear(it)`; initial guess `sci = max(I)/max(it)`, `bgi = min(I)`;
a cold `optimScalingAndBackground` with `ver = 1` (`fmin` oracle) followed
by a warm one with `ver = 2` (`lsq1` oracle), both on `it/vst`. -/
def mcInit (env : McEnv α) (fmin lsq1 : ℚ × ℚ → ℚ × ℚ) (rset : List α) : McState α :=
  let p := calcModel env rset
  let vset := p.2
  let vst := (vset.map (fun v => v ^ 2)).sum
  let it := env.smear p.1
  let sci := listMax env.intObs / listMax it
  let bgi := listMin env.intObs
  let f1 := optimScalingAndBackground fmin env.findBackground env.intObs
    (it.map (fun x => x / vst)) env.intError (sci, bgi)
  let f2 := optimScalingAndBackground lsq1 env.findBackground env.intObs
    (it.map (fun x => x / vst)) env.intError f1.1
  { rset := rset, vset := vset, it := it, vst := vst, sc := f2.1, conval := f2.2
    ri := 0, numIter := 0, numMoves := 0, numNotAccepted := 0 }

/-- The `startFromMinimum` initialization of one parameter column
(lines 600-605): `mb = min(param.valueRange())`, replaced by `pi/q.max()`
when that bound is zero, and every contribution receives `mb * 0.5` —
half the (possibly substituted) lower bound.  `piOverQmax` stands for the
value of `pi / q.max()`. -/
def startFromMinColumn (numContribs : ℕ) (piOverQmax mb : ℚ) : List ℚ :=
  List.replicate numContribs ((if mb = 0 then piOverQmax else mb) * 0.5)

/-- The lockstep invariant of one MC run: the stored compensated volumes
match the rows, the running total intensity equals the sum over all
current contributions of `F(q; pᵢ)²·V(pᵢ)²` at every `q` point, and the
rotating swap index is in range. -/
def IntensityInvariant (env : McEnv α) (s : McState α) : Prop :=
  s.vset = s.rset.map env.vol ∧
  s.it = env.q.map (fun qv =>
    (s.rset.map (fun r => (env.ff r qv) ^ 2 * (env.vol r) ^ 2)).sum) ∧
  s.ri < s.rset.length

/-- Every element of a list satisfies a predicate (used to state that all
parameter rows lie within the model's configured bounds). -/
def AllGood (good : α → Prop) (l : List α) : Prop := ∀ r ∈ l, good r

/-!
## Definitions: the repetition driver `McSAS.analyse` (mcsas.py lines 496-570)

`mcFit` is modelled as an oracle `attempt : ℕ → ℚ` giving the convergence
value of each successive attempt of one repetition (the other outputs do
not influence the control flow).
-/

/-- Outcome of the retry while-loop of one repetition: either the
repetition finished (converged, or broke out because `numContribs ≤ 1`)
after the recorded number of `mcFit` calls, or the loop executed
`return`, aborting the whole `analyse` call. -/
inductive RepOutcome
  | done (conval : ℚ) (attempts : ℕ)
  | abortAll (attempts : ℕ)
deriving DecidableEq

/-- The retry while-loop of `McSAS.analyse` (lines 529-549) for a single
repetition: while the convergence value exceeds `minConvergence`
(initially `inf`, so the body runs at least once): `nt += 1`; run `mcFit`
(the `attempt` oracle); break when `len(contributions) <= 1`; `return`
from `analyse` when `nt > maxRetries` — note this check precedes the next
loop-condition test, so it fires even if the attempt just converged; else
re-test the loop condition.  The fuel only bounds recursion and is
instantiated at `maxRetries + 2`, which is never exhausted. -/
def repWhile (attempt : ℕ → ℚ) (minConv : ℚ) (maxRetries numContribs : ℕ) :
    ℕ → ℕ → RepOutcome
  | nt, 0 => .abortAll nt
  | nt, fuel + 1 =>
    let conv := attempt (nt + 1)
    if numContribs ≤ 1 then .done conv (nt + 1)
    else if maxRetries < nt + 1 then .abortAll (nt + 1)
    else if conv ≤ minConv then .done conv (nt + 1)
    else repWhile attempt minConv maxRetries numContribs (nt + 1) fuel

/-- One repetition of `analyse`: the retry loop started at `nt = 0`. -/
def runRepetition (attempt : ℕ → ℚ) (minConv : ℚ)
    (maxRetries numContribs : ℕ) : RepOutcome :=
  repWhile attempt minConv maxRetries numContribs 0 (maxRetries + 2)

/-- The repetition loop of `McSAS.analyse` (lines 520-561), from
repetition `nr` with `remaining` repetitions to go: each repetition runs
its retry loop; a `done` outcome records the convergence value and moves
on; an `abortAll` outcome makes `analyse` return immediately — since
`self.result.append(...)` only happens after the loop (line 564), no
results at all are produced (`none`). -/
def analyseLoop (attempts : ℕ → ℕ → ℚ) (minConv : ℚ)
    (maxRetries numContribs : ℕ) : ℕ → ℕ → Option (List ℚ)
  | _, 0 => some []
  | nr, remaining + 1 =>
    match runRepetition (attempts nr) minConv maxRetries numContribs with
    | .done c _ =>
      (analyseLoop attempts minConv maxRetries numContribs (nr + 1) remaining).map
        (fun l => c :: l)
    | .abortAll _ => none

/-- The whole repetition driver: `numReps` repetitions from `nr = 0`. -/
def analyseDriver (attempts : ℕ → ℕ → ℚ) (minConv : ℚ)
    (maxRetries numContribs numReps : ℕ) : Option (List ℚ) :=
  analyseLoop attempts minConv maxRetries numContribs 0 numReps

/-!
## Definitions: `McSAS.rangeInfo` moments (mcsas.py lines 1225-1256)
-/

/-- The per-repetition outputs of `McSAS.rangeInfo`: total weight, mean,
variance, skewness and kurtosis. -/
structure RangeMoments where
  val : ℚ
  mu : ℚ
  var : ℚ
  skw : ℚ
  krt : ℚ
deriving DecidableEq

/-- One repetition of `McSAS.rangeInfo` (mcsas.py lines 1225-1256):
contributions are restricted to `min(valueRange) < p < max(valueRange)`,
then for weighting `"volume"` the moments use the volume fractions
(`vset`) — with the kurtosis denominator `sum(vset) * sigma**3` exactly as
in the source — and for weighting `"number"` the number fractions (`nset`)
with denominator `sum(nset) * sigma**4`; any other weighting returns
`None`.  `sigma = sqrt(abs(var))` with `numpy.sqrt` as oracle. -/
def rangeInfoRep (sqrtf : ℚ → ℚ) (weighting : String) (lo hi : ℚ)
    (rset vset nset : List ℚ) : Option RangeMoments :=
  let triples := (rset.zip (vset.zip nset)).filter
    (fun p => min lo hi < p.1 ∧ p.1 < max lo hi)
  let rs := triples.map (fun p => p.1)
  let vs := triples.map (fun p => p.2.1)
  let ns := triples.map (fun p => p.2.2)
  if weighting = "volume" then
    let mu := ((rs.zip vs).map (fun p => p.1 * p.2)).sum / vs.sum
    let var := ((rs.zip vs).map (fun p => (p.1 - mu) ^ 2 * p.2)).sum / vs.sum
    let sigma := sqrtf |var|
    some { val := vs.sum, mu := mu, var := var
           skw := ((rs.zip vs).map (fun p => (p.1 - mu) ^ 3 * p.2)).sum
                    / (vs.sum * sigma ^ 3)
           krt := ((rs.zip vs).map (fun p => (p.1 - mu) ^ 4 * p.2)).sum
                    / (vs.sum * sigma ^ 3) }
  else if weighting = "number" then
    let mu := ((rs.zip ns).map (fun p => p.1 * p.2)).sum / ns.sum
    let var := ((rs.zip ns).map (fun p => (p.1 - mu) ^ 2 * p.2)).sum / ns.sum
    let sigma := sqrtf |var|
    some { val := ns.sum, mu := mu, var := var
           skw := ((rs.zip ns).map (fun p => (p.1 - mu) ^ 3 * p.2)).sum
                    / (ns.sum * sigma ^ 3)
           krt := ((rs.zip ns).map (fun p => (p.1 - mu) ^ 4 * p.2)).sum
                    / (ns.sum * sigma ^ 4) }
  else none

/-- The specification's weighted kurtosis for a sub-range already
restricted: `Σ(p−μ)⁴·w / (Σw·σ⁴)`, the fourth central weighted moment
normalized by the fourth power of the weighted standard deviation, with
the same mean/variance/sigma pipeline as the code. -/
def specKurtosis (sqrtf : ℚ → ℚ) (rs ws : List ℚ) : ℚ :=
  let mu := ((rs.zip ws).map (fun p => p.1 * p.2)).sum / ws.sum
  let var := ((rs.zip ws).map (fun p => (p.1 - mu) ^ 2 * p.2)).sum / ws.sum
  let sigma := sqrtf |var|
  ((rs.zip ws).map (fun p => (p.1 - mu) ^ 4 * p.2)).sum / (ws.sum * sigma ^ 4)

/-!
## Definitions: `McSAS.histogram` per-repetition fractions
(mcsas.py lines 905-935)
-/

/-- Per-contribution volume fraction (line 909-911):
`sc[0] * vsa**2 / (vpa * deltaRhoSquared)` where `vsa` is the compensated
and `vpa` the real (compensation exponent 1) volume. -/
def volumeFractionList (A deltaRhoSq : ℚ) (vsa vpa : List ℚ) : List ℚ :=
  List.zipWith (fun va vp => A * va ^ 2 / (vp * deltaRhoSq)) vsa vpa

/-- `totalVolumeFraction[ri] = sum(volumeFraction[:, ri])` (line 912). -/
def totalVolumeFraction (vf : List ℚ) : ℚ := vf.sum

/-- Pre-normalization number fractions (line 913):
`numberFraction[:, ri] = volumeFraction[:, ri] / vpa`. -/
def numberFractionPre (vf vpa : List ℚ) : List ℚ :=
  List.zipWith (fun v vp => v / vp) vf vpa

/-- The stored fraction outputs of one repetition of `McSAS.histogram`. -/
structure HistFractions where
  volumeFraction : List ℚ
  totalVolumeFraction : ℚ
  numberFraction : List ℚ
  totalNumberFraction : ℚ
deriving DecidableEq

/-- One repetition of the fraction bookkeeping in `McSAS.histogram`
(lines 909-935): volume fractions and their sum are stored as computed;
`totalNumberFraction` is the sum of the pre-normalization number
fractions (line 914); afterwards `numberFraction[:, ri] /=
totalNumberFraction[ri]` (line 934) divides each stored number fraction by
that pre-normalization total, while `totalNumberFraction` itself is not
recomputed and the volume fractions are left untouched. -/
def histFractions (A deltaRhoSq : ℚ) (vsa vpa : List ℚ) : HistFractions :=
  { volumeFraction := volumeFractionList A deltaRhoSq vsa vpa
    totalVolumeFraction := totalVolumeFraction (volumeFractionList A deltaRhoSq vsa vpa)
    numberFraction :=
      (numberFractionPre (volumeFractionList A deltaRhoSq vsa vpa) vpa).map
        (fun n => n / (numberFractionPre (volumeFractionList A deltaRhoSq vsa vpa) vpa).sum)
    totalNumberFraction :=
      (numberFractionPre (volumeFractionList A deltaRhoSq vsa vpa) vpa).sum }

/-!
## Definitions: `McSAS.histogram` binning (mcsas.py lines 944-1009)
-/

/-- Bin edge `b` of `numpy.linspace(min(valueRange), max(valueRange),
histogramBins + 1)` (lines 947-950): `pmin + b·(pmax − pmin)/B`. -/
def linspaceEdge (pmin pmax : ℚ) (B : ℕ) (b : ℕ) : ℚ :=
  pmin + b * ((pmax - pmin) / B)

/-- The masked bin sum of lines 982-985: the sum of the weights of the
contributions whose parameter value lies in `[edges b, edges (b+1))`. -/
def binWeightSum (edges : ℕ → ℚ) (b : ℕ) (pairs : List (ℚ × ℚ)) : ℚ :=
  ((pairs.filter (fun p => edges b ≤ p.1 ∧ p.1 < edges (b + 1))).map Prod.snd).sum

/-- One repetition's column `volHistRepY[:, ri]` (lines 980-985): for each
bin, the summed volume fractions of its members. -/
def volHistRepColumn (edges : ℕ → ℚ) (B : ℕ) (rset vf : List ℚ) : List ℚ :=
  (List.range B).map (fun b => binWeightSum edges b (rset.zip vf))

/-!
## Definitions: concrete instances used by witnesses
-/

/-- A concrete tiny environment (one masked `q` point, a model whose form
factor and volume are zero) used to instantiate the oracle-parametric
theorems at explicit inputs. -/
def envW : McEnv ℚ :=
  { ff := fun _ _ => 0
    vol := fun _ => 0
    smear := id
    sqrtf := ratSqrt
    lsq := fun _ _ => (0, 0)
    findBackground := true
    q := [1]
    intObs := [1]
    intError := [1]
    dflt := 0 }

/-- A concrete mid-run state with two contributions, `Vs = 3² + 4² = 25`
and a large current χ²ᵣ, so that the next trial is accepted. -/
def sW : McState ℚ :=
  { rset := [3, 4], vset := [3, 4], it := [0], vst := 25, sc := (0, 0)
    conval := 1000, ri := 0, numIter := 0, numMoves := 0, numNotAccepted := 0 }

/-- A concrete environment with nontrivial model oracles and identity
smearing, for the intensity-invariant witness. -/
def envW2 : McEnv ℚ :=
  { ff := fun r qv => r * qv
    vol := fun r => r
    smear := id
    sqrtf := ratSqrt
    lsq := fun _ g => g
    findBackground := true
    q := [1, 2]
    intObs := [2, 3]
    intError := [1, 1]
    dflt := 0 }

/-!
## Theorems: general list-arithmetic helper lemmas
-/

theorem list_sum_map_div (l : List ℚ) (c : ℚ) :
    (l.map (fun x => x / c)).sum = l.sum / c := by
  induction l with
  | nil => simp
  | cons h t ih => simp [ih, add_div]

theorem list_getD_map (f : ℚ → ℚ) (l : List ℚ) (i : ℕ) (h : i < l.length) :
    (l.map f).getD i 0 = f (l.getD i 0) := by
  induction l generalizing i with
  | nil => simp at h
  | cons a t ih =>
    cases i with
    | zero => simp
    | succ j => simpa using ih j (by simpa using h)

theorem list_zip3_sum_eq_range_sum (f : ℚ → ℚ → ℚ → ℚ) :
    ∀ (l1 l2 l3 : List ℚ), l1.length = l2.length → l1.length = l3.length →
      (((l1.zip l2).zip l3).map (fun p => f p.1.1 p.1.2 p.2)).sum
        = ∑ i ∈ Finset.range l1.length, f (l1.getD i 0) (l2.getD i 0) (l3.getD i 0) := by
  intro l1
  induction l1 with
  | nil => intro l2 l3 _ _; simp
  | cons a t ih =>
    intro l2 l3 h2 h3
    match l2, l3 with
    | [], _ => simp at h2
    | _ :: _, [] => simp at h3
    | b :: t2, c :: t3 =>
      have h2' : t.length = t2.length := by simpa using h2
      have h3' : t.length = t3.length := by simpa using h3
      have step := Finset.sum_range_succ'
        (fun i => f ((a :: t).getD i 0) ((b :: t2).getD i 0) ((c :: t3).getD i 0)) t.length
      simp only [List.length_cons]
      rw [step]
      simp only [List.getD_cons_succ, List.getD_cons_zero]
      rw [← ih t2 t3 h2' h3']
      simp [add_comm]

theorem sum_map_add (l : List α) (f g : α → ℚ) :
    (l.map (fun x => f x + g x)).sum = (l.map f).sum + (l.map g).sum := by
  induction l with
  | nil => simp
  | cons a t ih => simp [ih]; ring

theorem filter_map_snd_sum (g : ℚ × ℚ → Bool) (l : List (ℚ × ℚ)) :
    ((l.filter g).map Prod.snd).sum = (l.map (fun p => if g p then p.2 else 0)).sum := by
  induction l with
  | nil => simp
  | cons a t ih =>
    cases hg : g a with
    | false => simp [List.filter_cons, hg, ih]
    | true => simp [List.filter_cons, hg, ih]

theorem zipWith_map_same (f : ℚ → ℚ → ℚ) (g h : β → ℚ) (l : List β) :
    List.zipWith f (l.map g) (l.map h) = l.map (fun x => f (g x) (h x)) := by
  induction l with
  | nil => rfl
  | cons a t ih => simp [ih]

theorem map_set_comm (f : β → ℚ) (l : List β) (i : ℕ) (a : β) :
    (l.set i a).map f = (l.map f).set i (f a) := by
  induction l generalizing i with
  | nil => rfl
  | cons b t ih =>
    cases i with
    | zero => rfl
    | succ j => simp [ih]

theorem sum_map_set (f : β → ℚ) (l : List β) (i : ℕ) (a : β) (d : β) (h : i < l.length) :
    ((l.set i a).map f).sum = (l.map f).sum - f (l.getD i d) + f a := by
  induction l generalizing i with
  | nil => simp at h
  | cons b t ih =>
    cases i with
    | zero =>
      simp only [List.set, List.map_cons, List.sum_cons, List.getD_cons_zero]
      ring
    | succ j =>
      have hj : j < t.length := by simpa using h
      simp only [List.set, List.map_cons, List.sum_cons, List.getD_cons_succ]
      rw [ih j hj]
      ring

theorem getD_map_eq (f : β → ℚ) (l : List β) (i : ℕ) (d : β) (h : i < l.length) :
    (l.map f).getD i 0 = f (l.getD i d) := by
  induction l generalizing i with
  | nil => simp at h
  | cons b t ih =>
    cases i with
    | zero => rfl
    | succ j => simpa using ih j (by simpa using h)

/-!
## Theorems: C8 — ScaleBgFit returns χ²ᵣ evaluated at the returned factors
-/

theorem zip3_chiSq_eq_spec (g : ℚ → ℚ) (A B : ℚ) (I C E : List ℚ)
    (hC : I.length = C.length) (hE : I.length = E.length)
    (hg : ∀ x, g x = A * x + B) :
    (((I.zip (C.map g)).zip E).map (fun p => ((p.1.1 - p.1.2) / p.2) ^ 2)).sum
      = ∑ i ∈ Finset.range I.length,
          ((I.getD i 0 - (A * C.getD i 0 + B)) / E.getD i 0) ^ 2 := by
  have := list_zip3_sum_eq_range_sum (fun a b c => ((a - b) / c) ^ 2)
    I (C.map g) E (by simpa using hC) hE
  rw [this]
  refine Finset.sum_congr rfl (fun i hi => ?_)
  have hiC : i < C.length := by
    rw [← hC]; exact Finset.mem_range.mp hi
  rw [list_getD_map g C i hiC, hg]

/-- C8: for every input `(I, σ, Ic)` with an initial guess, both embedded
scale/background fits (`BackgroundScalingFit.calc` and
`McSAS.optimScalingAndBackground`) return a triple `(A, B, χ²ᵣ)` whose
`χ²ᵣ` equals `(1/M')·Σ((I − (A·Ic + B))/σ)²` evaluated at the returned
`A` and `B` — whatever the external scipy solver returns — and when
`find_background` is false the returned `B` is exactly `0`. -/
theorem C8_scale_background_fit (solver lsq : ℚ × ℚ → ℚ × ℚ) (fb : Bool)
    (I E C : List ℚ) (sc : ℚ × ℚ)
    (hC : I.length = C.length) (hE : I.length = E.length) :
    ((bgScalingFitCalc solver fb I E C sc).2
      = specReducedChiSq I C E (bgScalingFitCalc solver fb I E C sc).1.1
          (bgScalingFitCalc solver fb I E C sc).1.2) ∧
    ((bgScalingFitCalc solver false I E C sc).1.2 = 0) ∧
    ((optimScalingAndBackground lsq fb I C E sc).2
      = specReducedChiSq I C E (optimScalingAndBackground lsq fb I C E sc).1.1
          (optimScalingAndBackground lsq fb I C E sc).1.2) ∧
    ((optimScalingAndBackground lsq false I C E sc).1.2 = 0) := by
  refine ⟨?_, ?_, ?_, ?_⟩
  · cases fb with
    | false =>
      simp only [bgScalingFitCalc, dataScaled, specReducedChiSq, chiSqr,
        Bool.false_eq_true, if_false]
      rw [zip3_chiSq_eq_spec (fun x => x * (solver sc).1) (solver sc).1 0 I C E hC hE
        (fun x => by ring)]
    | true =>
      simp only [bgScalingFitCalc, dataScaled, specReducedChiSq, chiSqr, if_true]
      rw [zip3_chiSq_eq_spec (fun x => x * (solver sc).1 + (solver sc).2)
        (solver sc).1 (solver sc).2 I C E hC hE (fun x => by ring)]
  · simp [bgScalingFitCalc]
  · cases fb with
    | false =>
      simp only [optimScalingAndBackground, specReducedChiSq, csqr_v1,
        Bool.false_eq_true, if_false]
      rw [zip3_chiSq_eq_spec (fun x => (lsq sc).1 * x) (lsq sc).1 0 I C E hC hE
        (fun x => by ring)]
    | true =>
      simp only [optimScalingAndBackground, specReducedChiSq, csqr_v1, if_true]
      rw [zip3_chiSq_eq_spec (fun x => (lsq sc).1 * x + (lsq sc).2)
        (lsq sc).1 (lsq sc).2 I C E hC hE (fun x => by ring)]
  · simp [optimScalingAndBackground]

theorem C8_scale_background_fit_witness :
    ([(3 : ℚ), 5].length = [(1 : ℚ), 2].length) ∧
    ((bgScalingFitCalc (fun g => g) true [(3 : ℚ), 5] [(1 : ℚ), 1] [(1 : ℚ), 2] (2, 1)).2
      = specReducedChiSq [(3 : ℚ), 5] [(1 : ℚ), 2] [(1 : ℚ), 1]
          (bgScalingFitCalc (fun g => g) true [(3 : ℚ), 5] [(1 : ℚ), 1] [(1 : ℚ), 2] (2, 1)).1.1
          (bgScalingFitCalc (fun g => g) true [(3 : ℚ), 5] [(1 : ℚ), 1] [(1 : ℚ), 2] (2, 1)).1.2) ∧
    ((optimScalingAndBackground (fun g => g) false [(3 : ℚ), 5] [(1 : ℚ), 2] [(1 : ℚ), 1] (2, 1)).1.2 = 0) :=
  ⟨by decide,
   (C8_scale_background_fit (fun g => g) (fun g => g) true
      [(3 : ℚ), 5] [(1 : ℚ), 1] [(1 : ℚ), 2] (2, 1) (by decide) (by decide)).1,
   (C8_scale_background_fit (fun g => g) (fun g => g) true
      [(3 : ℚ), 5] [(1 : ℚ), 1] [(1 : ℚ), 2] (2, 1) (by decide) (by decide)).2.2.2⟩

/-!
## Theorems: C9 — form factors at the origin
-/

/-- C9 counterexample: at `q = 0`, `r = 50` the sphere form factor formula
divides by `(qr)³ = 0` — there is no analytic special case in the code —
so the result is the division-by-zero junk value (0 in field semantics,
`nan` in the floating-point code), not the analytic limit 1.  The sine and
cosine oracles are instantiated with functions agreeing with sin and cos
at 0 (`sin 0 = 0`, `cos 0 = 1`); the outcome is independent of them. -/
theorem C9_counterexample :
    sphereFF (fun x => x) (fun _ => 1) 0 50 = 0 ∧ (0 : ℚ) ≠ 1 ∧
    ((0 : ℚ) * 50) ^ 3 = 0 := by
  refine ⟨?_, by norm_num, by norm_num⟩
  simp [sphereFF]

/-- C9 amended: `Sphere.ff` evaluates the raw formula with no handling of
`qr = 0`; at `q = 0` the denominator `(qr)³` vanishes for every radius and
every sine/cosine oracle, so the value is the division-by-zero junk value
0 (NaN in the floating-point original), not the analytic limit 1.
`GaussianChain.formfactor` does guard the origin: at `q = 0` (indeed for
any `q ≤ 0`) it returns `beta = bp - (k·rg²)·etas` — which also differs
from the contracted `F(0) = 1` unless `beta = 1`. -/
theorem C9_sphere_ff_origin :
    (∀ (sinF cosF : ℚ → ℚ) (r : ℚ), sphereFF sinF cosF 0 r = 0) ∧
    (∀ (sqrtF expm1F : ℚ → ℚ) (rg bp etas k : ℚ),
      gaussianChainFF sqrtF expm1F rg bp etas k 0 = bp - (k * rg ^ 2) * etas) := by
  constructor
  · intro sinF cosF r
    simp [sphereFF]
  · intro sqrtF expm1F rg bp etas k
    simp [gaussianChainFF]

/-!
## Theorems: C5 — rangeInfo kurtosis normalization
-/

/-- C5: the claim (kurtosis `= Σ(p−μ)⁴w/(Σw·σ⁴)` for both weightings) is
right and the code is wrong: the volume branch of `rangeInfo` divides the
fourth central moment by `sigma**3` (a slip — the number branch, the
docstring's "Pearson's definition", and the older `McSAS.py` in this
repository all use `sigma**4`).  At the failing input
`weighting = "volume"`, `valueRange = (−1, 9)`, `rset = [0, 8]`,
`volumeFraction = [1, 1]` the code returns kurtosis 4 while the documented
formula yields 1; the number branch on the same data does return the
documented value 1.  The sqrt oracle is exact here: `σ = √16 = 4`. -/
theorem C5_kurtosis_failing_input :
    ((rangeInfoRep ratSqrt "volume" (-1) 9 [0, 8] [1, 1] [1, 1]).map RangeMoments.krt
      = some 4) ∧
    specKurtosis ratSqrt [0, 8] [1, 1] = 1 ∧ ((4 : ℚ) ≠ 1) ∧
    ((rangeInfoRep ratSqrt "number" (-1) 9 [0, 8] [1, 1] [1, 1]).map RangeMoments.krt
      = some 1) ∧
    ratSqrt 16 * ratSqrt 16 = 16 := by
  refine ⟨?_, ?_, by norm_num, ?_, by norm_num [ratSqrt]⟩
  · norm_num [rangeInfoRep, ratSqrt, List.filter]
  · norm_num [specKurtosis, ratSqrt]
  · norm_num [rangeInfoRep, ratSqrt, List.filter]
    simp

/-!
## Theorems: C6 — histogram bin sums
-/

theorem indicator_partition (e : ℕ → ℚ) (x w : ℚ) :
    ∀ B : ℕ, (∀ i j, i ≤ j → j ≤ B → e i ≤ e j) → e 0 ≤ x → x < e B →
      ((List.range B).map (fun b => if e b ≤ x ∧ x < e (b + 1) then w else 0)).sum = w := by
  intro B
  induction B with
  | zero => intro _ h0 hB; exact absurd (lt_of_le_of_lt h0 hB) (lt_irrefl _)
  | succ B ih =>
    intro hmono h0 hB
    rw [List.range_succ, List.map_append, List.sum_append]
    by_cases hxB : x < e B
    · have hrec := ih (fun i j hij hj => hmono i j hij (Nat.le_succ_of_le hj)) h0 hxB
      rw [hrec]
      have : ¬ (e B ≤ x ∧ x < e (B + 1)) := fun hc => absurd hxB (not_lt.mpr hc.1)
      simp [this]
    · have hBx : e B ≤ x := not_lt.mp hxB
      have hzero : ((List.range B).map
          (fun b => if e b ≤ x ∧ x < e (b + 1) then w else 0)).sum = 0 := by
        apply List.sum_eq_zero
        intro y hy
        rcases List.mem_map.mp hy with ⟨b, hb, rfl⟩
        have hbB : b + 1 ≤ B := List.mem_range.mp hb
        have : e (b + 1) ≤ e B := hmono (b + 1) B hbB (Nat.le_succ B)
        have : ¬ (e b ≤ x ∧ x < e (b + 1)) :=
          fun hc => absurd (lt_of_lt_of_le hc.2 this) (not_lt.mpr hBx)
        simp [this]
      rw [hzero]
      simp [hBx, hB]

theorem sum_map_sum_comm (B : ℕ) (f : ℕ → β → ℚ) (l : List β) :
    ((List.range B).map (fun b => (l.map (f b)).sum)).sum
      = (l.map (fun p => ((List.range B).map (fun b => f b p)).sum)).sum := by
  induction l with
  | nil => simp
  | cons a t ih =>
    simp only [List.map_cons, List.sum_cons]
    rw [← ih, ← sum_map_add]

theorem linspaceEdge_mono (pmin pmax : ℚ) (B : ℕ) (hle : pmin ≤ pmax)
    (i j : ℕ) (hij : i ≤ j) :
    linspaceEdge pmin pmax B i ≤ linspaceEdge pmin pmax B j := by
  unfold linspaceEdge
  have hd : 0 ≤ (pmax - pmin) / (B : ℚ) := by
    apply div_nonneg (by linarith) (by positivity)
  have : (i : ℚ) ≤ (j : ℚ) := by exact_mod_cast hij
  nlinarith

/-- C6: for every repetition, summing the volume-weighted histogram bin
values over all `B` bins of the linspace grid on `[pmin, pmax)` yields the
repetition's total volume fraction `Σᵢ vᵢ` — exactly, hence a fortiori
within `1e-12` — provided every contribution's parameter value lies in
`[pmin, pmax)` (a contribution is counted in bin `b` exactly when its
value lies in `[x_b, x_{b+1})`, lines 982-985). -/
theorem C6_volume_histogram_sum (pmin pmax : ℚ) (B : ℕ) (rset vf : List ℚ)
    (hle : pmin ≤ pmax) (hB : 0 < B) (hlen : rset.length = vf.length)
    (hin : ∀ r ∈ rset, pmin ≤ r ∧ r < pmax) :
    (volHistRepColumn (linspaceEdge pmin pmax B) B rset vf).sum
      = totalVolumeFraction vf := by
  have he0 : linspaceEdge pmin pmax B 0 = pmin := by simp [linspaceEdge]
  have heB : linspaceEdge pmin pmax B B = pmax := by
    have hBne : (B : ℚ) ≠ 0 := by positivity
    field_simp [linspaceEdge]
  unfold volHistRepColumn binWeightSum totalVolumeFraction
  rw [show ∀ L : List ℕ, (L.map (fun b =>
      (((rset.zip vf).filter
          (fun p => decide (linspaceEdge pmin pmax B b ≤ p.1 ∧
            p.1 < linspaceEdge pmin pmax B (b + 1)))).map Prod.snd).sum))
      = L.map (fun b => ((rset.zip vf).map
          (fun p => if (linspaceEdge pmin pmax B b ≤ p.1 ∧
            p.1 < linspaceEdge pmin pmax B (b + 1)) then p.2 else 0)).sum)
    from fun L => List.map_congr_left (fun b _ => by
      rw [filter_map_snd_sum]
      simp)]
  rw [sum_map_sum_comm]
  have hstep : ((rset.zip vf).map (fun p => ((List.range B).map
      (fun b => if (linspaceEdge pmin pmax B b ≤ p.1 ∧
        p.1 < linspaceEdge pmin pmax B (b + 1)) then p.2 else 0)).sum))
      = (rset.zip vf).map Prod.snd := by
    apply List.map_congr_left
    intro p hp
    have hmem := List.of_mem_zip hp
    have hpr := hin p.1 hmem.1
    exact indicator_partition (linspaceEdge pmin pmax B) p.1 p.2 B
      (fun i j hij _ => linspaceEdge_mono pmin pmax B hle i j hij)
      (by rw [he0]; exact hpr.1) (by rw [heB]; exact hpr.2)
  rw [hstep, List.map_snd_zip rset vf (le_of_eq hlen.symm)]

theorem C6_volume_histogram_sum_witness :
    ((0 : ℚ) ≤ 10 ∧ 0 < 2 ∧ [(1 : ℚ), 6].length = [(2 : ℚ), 3].length ∧
      (∀ r ∈ [(1 : ℚ), 6], (0 : ℚ) ≤ r ∧ r < 10)) ∧
    (volHistRepColumn (linspaceEdge 0 10 2) 2 [(1 : ℚ), 6] [(2 : ℚ), 3]).sum
      = totalVolumeFraction [(2 : ℚ), 3] :=
  ⟨⟨by norm_num, by norm_num, by norm_num, by
      intro r hr
      rcases List.mem_cons.mp hr with h | h
      · rw [h]; norm_num
      · rw [List.mem_singleton.mp h]; norm_num⟩,
    C6_volume_histogram_sum 0 10 2 [(1 : ℚ), 6] [(2 : ℚ), 3]
      (by norm_num) (by norm_num) (by norm_num)
      (by
        intro r hr
        rcases List.mem_cons.mp hr with h | h
        · rw [h]; norm_num
        · rw [List.mem_singleton.mp h]; norm_num)⟩

/-!
## Theorems: C10 — number fraction normalization
-/

/-- C10: after the per-repetition pass, `totalNumberFraction` retains the
un-normalized sum `Σᵢ vᵢ / vpaᵢ` of the pre-normalization number
fractions; whenever that total is nonzero the stored per-contribution
number fractions sum to exactly 1; and the volume fractions are not
normalized (they are stored raw and their sum is `totalVolumeFraction`). -/
theorem C10_number_fraction_normalization (A dr : ℚ) (vsa vpa : List ℚ) :
    ((histFractions A dr vsa vpa).totalNumberFraction
      = (numberFractionPre (volumeFractionList A dr vsa vpa) vpa).sum) ∧
    ((histFractions A dr vsa vpa).totalNumberFraction ≠ 0 →
      (histFractions A dr vsa vpa).numberFraction.sum = 1) ∧
    ((histFractions A dr vsa vpa).volumeFraction = volumeFractionList A dr vsa vpa) ∧
    ((histFractions A dr vsa vpa).volumeFraction.sum
      = (histFractions A dr vsa vpa).totalVolumeFraction) := by
  refine ⟨rfl, ?_, rfl, rfl⟩
  intro h
  have hs : (histFractions A dr vsa vpa).numberFraction.sum
      = (numberFractionPre (volumeFractionList A dr vsa vpa) vpa).sum
        / (numberFractionPre (volumeFractionList A dr vsa vpa) vpa).sum :=
    list_sum_map_div _ _
  rw [hs]
  exact div_self h

theorem C10_number_fraction_normalization_witness :
    ((histFractions 1 1 [1] [1]).totalNumberFraction ≠ 0) ∧
    (histFractions 1 1 [1] [1]).numberFraction.sum = 1 :=
  ⟨by norm_num [histFractions, numberFractionPre, volumeFractionList, totalVolumeFraction],
   (C10_number_fraction_normalization 1 1 [1] [1]).2.1
     (by norm_num [histFractions, numberFractionPre, volumeFractionList, totalVolumeFraction])⟩

/-!
## Theorems: C1 — χ²ᵣ monotone across accepted moves
-/

theorem mcStep_conval_le (env : McEnv α) (s : McState α) (rt : α) :
    (mcStep env s rt).conval ≤ s.conval := by
  unfold mcStep
  dsimp only
  split
  case isTrue h => exact le_of_lt h
  case isFalse h => exact le_refl _

theorem mcFitLoop_conval_le (env : McEnv α) (minConv : ℚ) (maxIter : ℕ)
    (proposals : ℕ → α) :
    ∀ (fuel : ℕ) (s : McState α),
      (mcFitLoop env minConv maxIter proposals fuel s).conval ≤ s.conval := by
  intro fuel
  induction fuel with
  | zero => intro s; exact le_refl _
  | succ fuel ih =>
    intro s
    unfold mcFitLoop
    split
    case isTrue h =>
      exact le_trans (ih (mcStep env s (proposals s.numIter)))
        (mcStep_conval_le env s (proposals s.numIter))
    case isFalse h => exact le_refl _

/-- C1: within one MC run, the iteration body accepts a proposed swap
exactly when the refitted `convalt` is strictly smaller than the current
`conval` (the move counter increments precisely then); on acceptance the
current χ²ᵣ is replaced by that strictly smaller value and otherwise kept,
so after any number of loop iterations the held χ²ᵣ is never larger than
at the start: the sequence of χ²ᵣ values held after each move is monotone
non-increasing. -/
theorem C1_chiSq_monotone (env : McEnv α) (s : McState α) (rt : α)
    (minConv : ℚ) (maxIter fuel : ℕ) (proposals : ℕ → α) :
    ((mcStep env s rt).conval ≤ s.conval) ∧
    ((mcStep env s rt).numMoves = s.numMoves + 1 ↔ (mcTrial env s rt).2.2 < s.conval) ∧
    ((mcStep env s rt).conval
      = if (mcTrial env s rt).2.2 < s.conval then (mcTrial env s rt).2.2 else s.conval) ∧
    ((mcFitLoop env minConv maxIter proposals fuel s).conval ≤ s.conval) := by
  refine ⟨mcStep_conval_le env s rt, ?_, ?_,
    mcFitLoop_conval_le env minConv maxIter proposals fuel s⟩
  · unfold mcStep
    dsimp only
    split
    case isTrue h => simpa using h
    case isFalse h => simpa using h
  · unfold mcStep
    dsimp only
    split
    case isTrue h => simp [h]
    case isFalse h => simp [h]

/-!
## Theorems: C7 — the Vs update rule
-/

/-- C7: the candidate total squared compensated volume of each iteration
is computed by the reference update rule
`Vs' = (√Vs − V[r])² + Vₜ²` (line 695) — on acceptance the stored `vst`
becomes exactly that value — and this rule differs from the exact
recompute `Vs − V[r]² + Vₜ²`: at `Vs = 25`, `V[r] = 3`, `Vₜ = 0` with an
exact square root (`√25 = 5`) the rule yields 4 while the exact recompute
yields 16. -/
theorem C7_vstest_update (env : McEnv α) (s : McState α) (rt : α) :
    ((mcTrial env s rt).1.2
      = (env.sqrtf s.vst - s.vset.getD s.ri 0) ^ 2 + (env.vol rt) ^ 2) ∧
    ((mcTrial env s rt).2.2 < s.conval →
      (mcStep env s rt).vst
        = (env.sqrtf s.vst - s.vset.getD s.ri 0) ^ 2 + (env.vol rt) ^ 2) ∧
    (vstestUpdate ratSqrt 25 3 0 = 4 ∧ (25 : ℚ) - 3 ^ 2 + 0 ^ 2 = 16 ∧ (4 : ℚ) ≠ 16
      ∧ ratSqrt 25 * ratSqrt 25 = 25) := by
  refine ⟨rfl, ?_, by norm_num [vstestUpdate, ratSqrt]⟩
  intro h
  unfold mcStep
  dsimp only
  rw [if_pos h]
  rfl

theorem C7_vstest_update_witness :
    ((mcTrial envW sW 0).2.2 < sW.conval) ∧
    (mcStep envW sW 0).vst
      = (envW.sqrtf sW.vst - sW.vset.getD sW.ri 0) ^ 2 + (envW.vol 0) ^ 2 := by
  have hacc : (mcTrial envW sW 0).2.2 < sW.conval := by
    norm_num [mcTrial, contribIntensity, vstestUpdate, optimScalingAndBackground,
      csqr_v1, ratSqrt, envW, sW]
  exact ⟨hacc, (C7_vstest_update envW sW 0).2.1 hacc⟩

/-!
## Theorems: C2 — the incremental intensity update preserves It = Σᵢ Iᵢ
-/

theorem mcStep_intensity_invariant (env : McEnv α) (hsm : env.smear = id)
    (s : McState α) (rt : α) (hinv : IntensityInvariant env s) :
    IntensityInvariant env (mcStep env s rt) := by
  obtain ⟨hv, hit, hri⟩ := hinv
  have h0len : 0 < s.rset.length := Nat.lt_of_le_of_lt (Nat.zero_le _) hri
  unfold mcStep
  dsimp only
  split
  case isTrue h =>
    refine ⟨?_, ?_, ?_⟩
    · show s.vset.set s.ri (env.vol rt) = (s.rset.set s.ri rt).map env.vol
      rw [map_set_comm, hv]
    · have hvo : s.vset.getD s.ri 0 = env.vol (s.rset.getD s.ri env.dflt) := by
        rw [hv]; exact getD_map_eq env.vol s.rset s.ri env.dflt hri
      show env.smear (List.zipWith (fun a b => a + b)
          (List.zipWith (fun a b => a - b) s.it
            (contribIntensity env (s.rset.getD s.ri env.dflt) (s.vset.getD s.ri 0)))
          (contribIntensity env rt (env.vol rt)))
        = env.q.map (fun qv =>
            ((s.rset.set s.ri rt).map (fun r => (env.ff r qv) ^ 2 * (env.vol r) ^ 2)).sum)
      rw [hsm, hvo, hit]
      unfold contribIntensity
      rw [zipWith_map_same, zipWith_map_same]
      show env.q.map _ = _
      apply List.map_congr_left
      intro qv _
      rw [sum_map_set (fun r => (env.ff r qv) ^ 2 * (env.vol r) ^ 2)
        s.rset s.ri rt env.dflt hri]
    · show (s.ri + 1) % s.rset.length < (s.rset.set s.ri rt).length
      rw [List.length_set]
      exact Nat.mod_lt _ h0len
  case isFalse h =>
    refine ⟨hv, hit, ?_⟩
    show (s.ri + 1) % s.rset.length < s.rset.length
    exact Nat.mod_lt _ h0len

theorem mcInit_intensity_invariant (env : McEnv α) (hsm : env.smear = id)
    (fmin lsq1 : ℚ × ℚ → ℚ × ℚ) (rset0 : List α) (hne : rset0 ≠ []) :
    IntensityInvariant env (mcInit env fmin lsq1 rset0) := by
  refine ⟨rfl, ?_, ?_⟩
  · show env.smear (calcModel env rset0).1 = _
    rw [hsm]
    rfl
  · show (0 : ℕ) < rset0.length
    exact List.length_pos.mpr hne

theorem mcFitLoop_intensity_invariant (env : McEnv α) (hsm : env.smear = id)
    (minConv : ℚ) (maxIter : ℕ) (proposals : ℕ → α) :
    ∀ (fuel : ℕ) (s : McState α), IntensityInvariant env s →
      IntensityInvariant env (mcFitLoop env minConv maxIter proposals fuel s) := by
  intro fuel
  induction fuel with
  | zero => intro s h; exact h
  | succ fuel ih =>
    intro s h
    unfold mcFitLoop
    split
    case isTrue hc => exact ih _ (mcStep_intensity_invariant env hsm s _ h)
    case isFalse hc => exact h

/-- C2: with the default identity smearing, the lockstep invariant — the
running total `It` equals `Σᵢ F(q; pᵢ)²·V(pᵢ)²` at every masked `q` point
(exactly in rational arithmetic, hence a fortiori within `1e-8` relative
error), with `vset` in lockstep and the swap index in range — holds after
the `mcFit` initialization, is preserved by every iteration of the loop
body (the incremental update `It' = It − Iₒ + Iₜ` with `Iₒ` recomputed on
the fly from the row being replaced), and therefore holds after any
number of loop iterations of the whole run. -/
theorem C2_total_intensity (env : McEnv α) (hsm : env.smear = id)
    (fmin lsq1 : ℚ × ℚ → ℚ × ℚ) (rset0 : List α) (hne : rset0 ≠ [])
    (minConv : ℚ) (maxIter fuel : ℕ) (proposals : ℕ → α) (rt : α) :
    IntensityInvariant env (mcInit env fmin lsq1 rset0) ∧
    (∀ s : McState α, IntensityInvariant env s →
      IntensityInvariant env (mcStep env s rt)) ∧
    (∀ s : McState α, IntensityInvariant env s →
      IntensityInvariant env (mcFitLoop env minConv maxIter proposals fuel s)) ∧
    IntensityInvariant env
      (mcFitLoop env minConv maxIter proposals fuel (mcInit env fmin lsq1 rset0)) :=
  ⟨mcInit_intensity_invariant env hsm fmin lsq1 rset0 hne,
   fun s hs => mcStep_intensity_invariant env hsm s rt hs,
   fun s hs => mcFitLoop_intensity_invariant env hsm minConv maxIter proposals fuel s hs,
   mcFitLoop_intensity_invariant env hsm minConv maxIter proposals fuel _
     (mcInit_intensity_invariant env hsm fmin lsq1 rset0 hne)⟩

theorem C2_total_intensity_witness :
    IntensityInvariant envW2
      (mcFitLoop envW2 1 5 (fun _ => 3) 5 (mcInit envW2 (fun g => g) (fun g => g) [1, 2])) :=
  (C2_total_intensity envW2 rfl (fun g => g) (fun g => g) [1, 2] (by simp)
    1 5 5 (fun _ => 3) 3).2.2.2

/-!
## Theorems: C4 — parameter bounds
-/

/-- C4 counterexample: with configured bounds `(2, 10)` the
`startFromMinimum` initialization fills every contribution with
`2 * 0.5 = 1`, which is neither the lower bound 2 nor inside `(2, 10)`:
the claim fails on the code for the `start_from_minimum` path. -/
theorem C4_counterexample :
    startFromMinColumn 3 1 2 = [1, 1, 1] ∧ ¬ ((2 : ℚ) < 1 ∧ (1 : ℚ) < 10) ∧
    (1 : ℚ) ≠ 2 := by
  refine ⟨?_, by norm_num, by norm_num⟩
  norm_num [startFromMinColumn]
  rfl

theorem mcStep_allGood (env : McEnv α) (good : α → Prop)
    (s : McState α) (rt : α) (hs : AllGood good s.rset) (hrt : good rt) :
    AllGood good (mcStep env s rt).rset := by
  intro r hr
  unfold mcStep at hr
  dsimp only at hr
  split at hr
  case isTrue h =>
    rcases List.mem_or_eq_of_mem_set hr with h' | h'
    · exact hs r h'
    · rw [h']; exact hrt
  case isFalse h => exact hs r hr

theorem mcFitLoop_allGood (env : McEnv α) (good : α → Prop) (minConv : ℚ)
    (maxIter : ℕ) (proposals : ℕ → α) (hprop : ∀ n, good (proposals n)) :
    ∀ (fuel : ℕ) (s : McState α), AllGood good s.rset →
      AllGood good (mcFitLoop env minConv maxIter proposals fuel s).rset := by
  intro fuel
  induction fuel with
  | zero => intro s h; exact h
  | succ fuel ih =>
    intro s h
    unfold mcFitLoop
    split
    case isTrue hc =>
      exact ih _ (mcStep_allGood env good s _ h (hprop s.numIter))
    case isFalse hc => exact h

/-- C4 amended: after a model-sampled initialization and after every
accepted swap all parameter rows satisfy any property (in particular,
membership in the configured bounds) that the sampler's proposals
satisfy — the loop replaces at most one row per accepted move with a
fresh proposal.  The `start_from_minimum` initialization, however, fills
each parameter with HALF its lower bound (half of `π/q_max` when the
bound is zero), which lies strictly below the lower bound whenever that
bound is positive, hence outside the configured `(min, max)` interval. -/
theorem C4_bounds_invariant (numContribs : ℕ) (piq mb : ℚ) (hmb : 0 < mb)
    (env : McEnv α) (good : α → Prop) (minConv : ℚ) (maxIter fuel : ℕ)
    (proposals : ℕ → α) (hprop : ∀ n, good (proposals n)) :
    AllGood (fun x => x < mb) (startFromMinColumn numContribs piq mb) ∧
    (∀ (s : McState α) (rt : α), AllGood good s.rset → good rt →
      AllGood good (mcStep env s rt).rset) ∧
    (∀ (s : McState α), AllGood good s.rset →
      AllGood good (mcFitLoop env minConv maxIter proposals fuel s).rset) := by
  refine ⟨?_, fun s rt hs hrt => mcStep_allGood env good s rt hs hrt,
    fun s hs => mcFitLoop_allGood env good minConv maxIter proposals hprop fuel s hs⟩
  intro x hx
  rw [List.eq_of_mem_replicate hx, if_neg (ne_of_gt hmb)]
  linarith

theorem C4_bounds_invariant_witness :
    AllGood (fun x => x < (2 : ℚ)) (startFromMinColumn 2 1 2) ∧
    AllGood (fun r => (2 : ℚ) < r ∧ r < 10) (mcFitLoop envW 1 9 (fun _ => 5) 3 sW).rset := by
  have h := C4_bounds_invariant 2 1 2 (by norm_num) envW
    (fun r => (2 : ℚ) < r ∧ r < 10) 1 9 3 (fun _ => 5) (fun n => by norm_num)
  refine ⟨h.1, h.2.2 sW ?_⟩
  intro r hr
  rcases List.mem_cons.mp hr with h' | h'
  · rw [h']; norm_num
  · rw [List.mem_singleton.mp h']; norm_num

/-!
## Theorems: C3 — retry exhaustion aborts the whole analysis
-/

/-- C3 counterexample: with `maxRetries = 5`, `numContribs = 2` and two
repetitions, where repetition 0 never converges (`χ²ᵣ = 2 > 1`) but
repetition 1 would converge instantly (`χ²ᵣ = 0`), the driver returns
`none` — `analyse` executes `return` with `self.result` still empty, so
the remaining repetition is never run and no results are produced — and
the abort fires after `maxRetries + 1 = 6` attempts, not after
`maxRetries + 2` as the diagnostic message claims. -/
theorem C3_counterexample :
    analyseDriver (fun nr _ => if nr = 0 then 2 else 0) 1 5 2 2 = none ∧
    runRepetition (fun _ => (2 : ℚ)) 1 5 2 = .abortAll 6 ∧
    runRepetition (fun _ => (0 : ℚ)) 1 5 2 = .done 0 1 := by
  refine ⟨?_, ?_, ?_⟩
  · norm_num [analyseDriver, analyseLoop, runRepetition, repWhile]
  · norm_num [runRepetition, repWhile]
  · norm_num [runRepetition, repWhile]

theorem repWhile_abort (attempt : ℕ → ℚ) (minConv : ℚ) (maxRetries numContribs : ℕ)
    (h2 : 1 < numContribs)
    (hfail : ∀ nt, nt ≤ maxRetries + 1 → minConv < attempt nt) :
    ∀ (k : ℕ), 0 < k → ∀ (nt fuel : ℕ), nt + k = maxRetries + 1 → k ≤ fuel →
      repWhile attempt minConv maxRetries numContribs nt fuel
        = .abortAll (maxRetries + 1) := by
  intro k
  induction k with
  | zero => intro h; exact absurd h (lt_irrefl 0)
  | succ k ih =>
    intro _ nt fuel hsum hfuel
    obtain ⟨f, rfl⟩ : ∃ f, fuel = f + 1 := ⟨fuel - 1, by omega⟩
    unfold repWhile
    dsimp only
    rw [if_neg (by omega : ¬ numContribs ≤ 1)]
    by_cases hk : k = 0
    · subst hk
      have hnt : nt + 1 = maxRetries + 1 := by omega
      rw [if_pos (by omega : maxRetries < nt + 1), hnt]
    · rw [if_neg (by omega : ¬ maxRetries < nt + 1),
        if_neg (not_le.mpr (hfail (nt + 1) (by omega)))]
      exact ih (by omega) (nt + 1) f (by omega) (by omega)

/-- C3 amended: when one repetition fails to reach the convergence
criterion on each of its `maxRetries + 1` mcFit attempts (the diagnostic
message counts `maxRetries + 2`, off by one from the actual control
flow), the retry loop executes `return` from `analyse`: the whole
analysis is aborted — the remaining repetitions are never run, and since
results are only appended after the repetition loop, even the completed
repetitions are discarded (`analyse` produces no results at all).
Non-convergence of one repetition is therefore fatal to the whole
analysis, not survivable. -/
theorem C3_retry_abort (attempts : ℕ → ℕ → ℚ) (minConv : ℚ)
    (maxRetries numContribs : ℕ) (h2 : 1 < numContribs)
    (hfail : ∀ nt, nt ≤ maxRetries + 1 → minConv < attempts 0 nt) :
    runRepetition (attempts 0) minConv maxRetries numContribs
      = .abortAll (maxRetries + 1) ∧
    (∀ numReps, 0 < numReps →
      analyseDriver attempts minConv maxRetries numContribs numReps = none) := by
  have habort : runRepetition (attempts 0) minConv maxRetries numContribs
      = .abortAll (maxRetries + 1) :=
    repWhile_abort (attempts 0) minConv maxRetries numContribs h2 hfail
      (maxRetries + 1) (by omega) 0 (maxRetries + 2) (by omega) (by omega)
  refine ⟨habort, ?_⟩
  intro numReps hpos
  obtain ⟨n, rfl⟩ : ∃ n, numReps = n + 1 := ⟨numReps - 1, by omega⟩
  unfold analyseDriver analyseLoop
  rw [habort]

theorem C3_retry_abort_witness :
    ((1 : ℕ) < 2) ∧
    runRepetition (fun _ => (2 : ℚ)) 1 5 2 = .abortAll 6 ∧
    analyseDriver (fun _ _ => (2 : ℚ)) 1 5 2 3 = none := by
  have h := C3_retry_abort (fun _ _ => (2 : ℚ)) 1 5 2 (by omega)
    (fun nt _ => by norm_num)
  exact ⟨by omega, h.1, h.2 3 (by omega)⟩

end McSAS
